import Mathlib

/-!
Verification of the `uniquote` escaping core: a shallow embedding of
`src/escape/mod.rs`, `src/escape/code_point.rs` and the drivers, together
with theorems about the printability classifier, the escape decision
engine, the rendering routine, the three drivers and the output grammar.
-/

namespace Uniquote

/-- A single write call issued to the output formatter: either one character
(`write_char`) or a contiguous string slice (`write_str`). -/
inductive Write where
  | char (c : Char)
  | str (s : List Char)
deriving DecidableEq, Repr

/-- The sequence of write calls produced by an escaping operation. -/
abbrev Output := List Write

/-- The characters contributed by one write call. -/
def Write.chars : Write → List Char
  | .char c => [c]
  | .str s => s

/-- The text produced by an output: the characters of its writes, in order. -/
def outChars (o : Output) : List Char := o.flatMap Write.chars

theorem outChars_nil : outChars [] = [] := rfl

theorem outChars_append (a b : Output) :
    outChars (a ++ b) = outChars a ++ outChars b := by
  simp [outChars]

/-- The lowercase hexadecimal digit character for a value below 16, as produced
by the `{:x}` formatting used in `EscapedCodePoint::format`. -/
def hexDigitChar (n : Nat) : Char :=
  if n < 10 then Char.ofNat (48 + n) else Char.ofNat (87 + n)

/-- Fuel-driven digit loop for lowercase hexadecimal, most significant digit
first, prepended to `acc`.  The fuel is an upper bound on the number of
iterations; `toHex` supplies a sufficient amount. -/
def toHexGo : Nat → Nat → List Char → List Char
  | 0, _, acc => acc
  | fuel + 1, n, acc =>
      if n = 0 then acc else toHexGo fuel (n / 16) (hexDigitChar (n % 16) :: acc)

/-- The lowercase hexadecimal rendering of `n` with no leading zeros, as
produced by `write!(formatter, "u{:x}", …)` in `EscapedCodePoint::format`. -/
def toHex (n : Nat) : List Char :=
  if n = 0 then ['0'] else toHexGo n n []

/-- Whether `c` is one of the digit characters `0`-`9` or `a`-`f` that the
lowercase hexadecimal rendering can produce. -/
def isHexDig (c : Char) : Bool :=
  (48 ≤ c.toNat && c.toNat ≤ 57) || (97 ≤ c.toNat && c.toNat ≤ 102)

/-- The numeric value of a hexadecimal digit character accepted by
`isHexDig`. -/
def hexVal (c : Char) : Nat :=
  if c.toNat ≤ 57 then c.toNat - 48 else c.toNat - 87

/-- The number denoted by a big-endian string of hexadecimal digits. -/
def fromHex (ds : List Char) : Nat :=
  ds.foldl (fun a c => a * 16 + hexVal c) 0

/-- Result of the slice binary search used by `table_contains`: the index of a
matching entry, or the insertion index for a missing key. -/
inductive SearchResult where
  | found (i : Nat)
  | notFound (i : Nat)
deriving DecidableEq, Repr

/-- The binary search loop of Rust's `slice::binary_search_by_key`, keyed on
the low bound of each range.  `fuel` bounds the number of iterations; the
loop shrinks `right - left` every round, so `t.length + 1` is sufficient. -/
def binarySearchGo (t : List (Nat × Nat)) (cp : Nat) :
    Nat → Nat → Nat → SearchResult
  | 0, left, _ => .notFound left
  | fuel + 1, left, right =>
      if left < right then
        let mid := left + (right - left) / 2
        let k := (t.getD mid (0, 0)).1
        if k < cp then binarySearchGo t cp fuel (mid + 1) right
        else if cp < k then binarySearchGo t cp fuel left mid
        else .found mid
      else .notFound left

/-- `table.binary_search_by_key(&code_point, |&(x, _)| x)` over the whole
range table. -/
def binarySearch (t : List (Nat × Nat)) (cp : Nat) : SearchResult :=
  binarySearchGo t cp (t.length + 1) 0 t.length

/-- `table_contains` from `src/escape/mod.rs`: a hit of the binary search, or
an insertion index whose predecessor range still covers the code point. -/
def table_contains (t : List (Nat × Nat)) (cp : Nat) : Bool :=
  match binarySearch t cp with
  | .found _ => true
  | .notFound i =>
      match i with
      | 0 => false
      | j + 1 => decide (cp ≤ (t.getD j (0, 0)).2)

/-- `is_printable` from `src/escape/mod.rs`, parametrised by the unprintable
range table: printable ASCII fast path, other ASCII unprintable, and a table
lookup for everything else. -/
def is_printable (t : List (Nat × Nat)) (ch : Char) : Bool :=
  if 0x20 ≤ ch.toNat ∧ ch.toNat ≤ 0x7E then true
  else if ch.toNat ≤ 0x7F then false
  else !table_contains t ch.toNat

/-- The `EscapedCodePoint` enum from `src/escape/mod.rs`.  `Hex` carries the
numeric code point value (the `CodePoint` newtype over `u32`), `Sequence`
carries the short mnemonic written after `~`. -/
inductive EscapedCodePoint where
  | Hex (cp : Nat)
  | Literal (ch : Char)
  | Quote
  | Repeated (ch : Char)
  | Sequence (s : List Char)
deriving DecidableEq, Repr

/-- `EscapedCodePoint::format`: the exact sequence of write calls issued to
the formatter for one escape form. -/
def EscapedCodePoint.format : EscapedCodePoint → Output
  | .Literal ch => [.char ch]
  | .Repeated ch => [.char ch, .char ch]
  | .Quote => [.char '{', .char '"', .char '}']
  | .Sequence s => [.char '{', .char '~', .str s, .char '}']
  | .Hex cp => [.char '{', .char '~', .str ('u' :: toHex cp), .char '}']

/-- `impl From<char> for EscapedCodePoint`: the escape decision engine, with
its first-match-wins resolution order. -/
def classifyChar (t : List (Nat × Nat)) (ch : Char) : EscapedCodePoint :=
  if ch = '\t' then .Sequence ['t']
  else if ch = '\n' then .Sequence ['n']
  else if ch = '\r' then .Sequence ['r']
  else if ch = '"' then .Quote
  else if ch = '}' ∨ ch = '{' then .Repeated ch
  else if is_printable t ch then .Literal ch
  else .Hex ch.toNat

/-- `impl From<u8> for EscapedCodePoint`: a byte is first widened to the
one-byte code point (Latin-1 character) of its value. -/
def classifyByte (t : List (Nat × Nat)) (b : Nat) : EscapedCodePoint :=
  classifyChar t (Char.ofNat b)

/-- `impl From<CodePoint> for EscapedCodePoint`: a code point that is a valid
scalar value is classified as a character; otherwise (a surrogate) it is
rendered as a hex escape. -/
def classifyCP (t : List (Nat × Nat)) (cp : Nat) : EscapedCodePoint :=
  if Nat.isValidChar cp then classifyChar t (Char.ofNat cp) else .Hex cp

/-- Modelled from the spec: `src/escape/tables.rs` (the static `UNPRINTABLE`
range table) is not part of the provided sources.  Per §3 it is a sorted
sequence of disjoint inclusive code-point ranges; this concrete model is
faithful to every classification pinned down by the repository's integration
tests (bytes `0x80`-`0xA0` and `0xAD` unprintable, the rest of Latin-1
printable, and `U+200B`, `U+FFFF`, `U+10D4EA`, `U+10FFFF` unprintable). -/
def uTable : List (Nat × Nat) :=
  [(0x80, 0xA0), (0xAD, 0xAD), (0x200B, 0x200B), (0xFFFF, 0xFFFF),
   (0x10D4EA, 0x10D4EA), (0x10FFFF, 0x10FFFF)]

/-- The loop of `impl Escape for str`: `pending` is the literal span kept as a
pair of indices in the source (here the run of characters themselves).  A
non-literal classification flushes the pending span as one `write_str` (only
when non-empty, matching `index != escaped_index`), renders the escape, and
starts a fresh span. -/
def escStrGo (t : List (Nat × Nat)) (pending : List Char) :
    List Char → Output
  | [] => if pending.isEmpty then [] else [.str pending]
  | c :: rest =>
    match classifyChar t c with
    | .Literal _ => escStrGo t (pending ++ [c]) rest
    | e =>
        (if pending.isEmpty then [] else [.str pending]) ++
          e.format ++ escStrGo t [] rest

/-- `impl Escape for str`: escape guaranteed-valid text, batching maximal
literal runs into single writes. -/
def escStrOut (t : List (Nat × Nat)) (s : List Char) : Output :=
  escStrGo t [] s

/-- The unbatched reference: every character rendered individually through
the classifier and `EscapedCodePoint::format`. -/
def escStrUnbatched (t : List (Nat × Nat)) (s : List Char) : Output :=
  s.flatMap fun c => (classifyChar t c).format

/-- `impl Escape for char`: a single character is encoded to UTF-8 and escaped
through the string driver. -/
def escCharOut (t : List (Nat × Nat)) (ch : Char) : Output :=
  escStrOut t [ch]

/-- Result of `str::from_utf8` on a byte buffer: the decoded characters of the
whole buffer, or the decoded characters of the valid prefix together with
`valid_up_to` and `error_len` of the `Utf8Error`. -/
inductive Utf8Result where
  | ok (chars : List Char)
  | err (chars : List Char) (validLen : Nat) (errLen : Option Nat)
deriving DecidableEq, Repr

/-- Prepend one decoded character of encoded width `w` to a validation
result, shifting the error position. -/
def Utf8Result.push (c : Char) (w : Nat) : Utf8Result → Utf8Result
  | .ok cs => .ok (c :: cs)
  | .err cs v e => .err (c :: cs) (v + w) e

/-- UTF-8 validation and decoding with the exact error reporting of
`core::str::from_utf8`: `errLen` is `none` for an incomplete sequence at the
end of the buffer, and otherwise the length (1-3) of the maximal invalid
subpart. -/
def utf8Validate : List Nat → Utf8Result
  | [] => .ok []
  | b :: rest =>
    if b < 0x80 then (utf8Validate rest).push (Char.ofNat b) 1
    else if b < 0xC2 then .err [] 0 (some 1)
    else if b ≤ 0xDF then
      match rest with
      | [] => .err [] 0 none
      | b2 :: rest2 =>
        if 0x80 ≤ b2 ∧ b2 ≤ 0xBF then
          (utf8Validate rest2).push
            (Char.ofNat ((b - 0xC0) * 0x40 + (b2 - 0x80))) 2
        else .err [] 0 (some 1)
    else if b ≤ 0xEF then
      match rest with
      | [] => .err [] 0 none
      | b2 :: rest2 =>
        if (b = 0xE0 ∧ 0xA0 ≤ b2 ∧ b2 ≤ 0xBF) ∨
            (0xE1 ≤ b ∧ b ≤ 0xEC ∧ 0x80 ≤ b2 ∧ b2 ≤ 0xBF) ∨
            (b = 0xED ∧ 0x80 ≤ b2 ∧ b2 ≤ 0x9F) ∨
            (0xEE ≤ b ∧ 0x80 ≤ b2 ∧ b2 ≤ 0xBF) then
          match rest2 with
          | [] => .err [] 0 none
          | b3 :: rest3 =>
            if 0x80 ≤ b3 ∧ b3 ≤ 0xBF then
              (utf8Validate rest3).push
                (Char.ofNat
                  ((b - 0xE0) * 0x1000 + (b2 - 0x80) * 0x40 + (b3 - 0x80))) 3
            else .err [] 0 (some 2)
        else .err [] 0 (some 1)
    else if b ≤ 0xF4 then
      match rest with
      | [] => .err [] 0 none
      | b2 :: rest2 =>
        if (b = 0xF0 ∧ 0x90 ≤ b2 ∧ b2 ≤ 0xBF) ∨
            (0xF1 ≤ b ∧ b ≤ 0xF3 ∧ 0x80 ≤ b2 ∧ b2 ≤ 0xBF) ∨
            (b = 0xF4 ∧ 0x80 ≤ b2 ∧ b2 ≤ 0x8F) then
          match rest2 with
          | [] => .err [] 0 none
          | b3 :: rest3 =>
            if 0x80 ≤ b3 ∧ b3 ≤ 0xBF then
              match rest3 with
              | [] => .err [] 0 none
              | b4 :: rest4 =>
                if 0x80 ≤ b4 ∧ b4 ≤ 0xBF then
                  (utf8Validate rest4).push
                    (Char.ofNat
                      ((b - 0xF0) * 0x40000 + (b2 - 0x80) * 0x1000 +
                        (b3 - 0x80) * 0x40 + (b4 - 0x80))) 4
                else .err [] 0 (some 3)
            else .err [] 0 (some 2)
        else .err [] 0 (some 1)
    else .err [] 0 (some 1)

/-- The loop of `impl Escape for [u8]`: decode the remaining buffer, escape
the valid prefix through the string driver, escape each byte of the invalid
span individually via `From<u8>`, and continue past the span.  `fuel` bounds
the iteration count; every round consumes at least one byte, so
`bs.length` is sufficient (see `escBytesGo_fuel`). -/
def escBytesGo (t : List (Nat × Nat)) : Nat → List Nat → Output
  | _, [] => []
  | 0, _ :: _ => []
  | fuel + 1, bs =>
    match utf8Validate bs with
    | .ok cs => escStrOut t cs
    | .err cs v e =>
      let rest := bs.drop v
      let n := e.getD rest.length
      escStrOut t cs ++
        ((rest.take n).flatMap fun b => (classifyByte t b).format) ++
        escBytesGo t fuel (rest.drop n)

/-- `impl Escape for [u8]`: the byte-stream driver. -/
def escBytesOut (t : List (Nat × Nat)) (bs : List Nat) : Output :=
  escBytesGo t bs.length bs

/-- `char::decode_utf16`: each item is a decoded scalar value or the unpaired
surrogate reported by `DecodeUtf16Error::unpaired_surrogate`. -/
def decodeUtf16 : List Nat → List (Except Nat Char)
  | [] => []
  | [u] => if u < 0xD800 ∨ 0xDFFF < u then [.ok (Char.ofNat u)] else [.error u]
  | u :: u2 :: rest =>
    if u < 0xD800 ∨ 0xDFFF < u then
      .ok (Char.ofNat u) :: decodeUtf16 (u2 :: rest)
    else if u ≤ 0xDBFF then
      if 0xDC00 ≤ u2 ∧ u2 ≤ 0xDFFF then
        .ok (Char.ofNat (0x10000 + (u - 0xD800) * 0x400 + (u2 - 0xDC00))) ::
          decodeUtf16 rest
      else .error u :: decodeUtf16 (u2 :: rest)
    else .error u :: decodeUtf16 (u2 :: rest)

/-- The UTF-16 driver (`impl Escape for OsStr`, wide path): each decoded item
is classified — scalar values through `From<char>`, unpaired surrogates
through `From<DecodeUtf16Error> for CodePoint` and then
`From<CodePoint>` — and rendered individually, with no batching. -/
def escUtf16Out (t : List (Nat × Nat)) (us : List Nat) : Output :=
  (decodeUtf16 us).flatMap fun item =>
    (match item with
      | .ok ch => classifyChar t ch
      | .error s => classifyCP t s).format

theorem charToNat_ofNat {n : Nat} (h : n.isValidChar) :
    (Char.ofNat n).toNat = n := by
  simp [Char.ofNat, h, Char.ofNatAux, Char.toNat]
  rfl

theorem char_eq_iff_toNat {a b : Char} : a = b ↔ a.toNat = b.toNat := by
  constructor
  · intro h; rw [h]
  · intro h; exact Char.eq_of_val_eq (UInt32.ext h)

theorem toHexGo_zero (f : Nat) (acc : List Char) : toHexGo f 0 acc = acc := by
  cases f <;> simp [toHexGo]

theorem toHexGo_congr {f1 f2 n : Nat} (acc : List Char)
    (h1 : n ≤ f1) (h2 : n ≤ f2) : toHexGo f1 n acc = toHexGo f2 n acc := by
  induction f1 generalizing f2 n acc with
  | zero =>
    have : n = 0 := by omega
    subst this
    rw [toHexGo_zero, toHexGo_zero]
  | succ f1 ih =>
    by_cases hn : n = 0
    · subst hn; rw [toHexGo_zero, toHexGo_zero]
    · have hf2 : 0 < f2 := by omega
      obtain ⟨f2', rfl⟩ : ∃ k, f2 = k + 1 := ⟨f2 - 1, by omega⟩
      simp only [toHexGo, hn, if_false]
      have hdiv : n / 16 < n := Nat.div_lt_self (by omega) (by omega)
      exact ih _ (by omega) (by omega)

theorem toHexGo_append {f n : Nat} (acc : List Char) (h : n ≤ f) :
    toHexGo f n acc = toHexGo f n [] ++ acc := by
  induction f generalizing n acc with
  | zero =>
    have : n = 0 := by omega
    subst this; simp [toHexGo]
  | succ f ih =>
    by_cases hn : n = 0
    · subst hn; simp [toHexGo_zero]
    · simp only [toHexGo, hn, if_false]
      have hdiv : n / 16 < n := Nat.div_lt_self (by omega) (by omega)
      rw [ih _ (by omega), ih [hexDigitChar (n % 16)] (by omega),
        List.append_assoc]
      rfl

theorem hexVal_hexDigitChar {m : Nat} (h : m < 16) :
    hexVal (hexDigitChar m) = m := by
  interval_cases m <;> decide

theorem isHexDig_hexDigitChar {m : Nat} (h : m < 16) :
    isHexDig (hexDigitChar m) = true := by
  interval_cases m <;> decide

theorem hexDigitChar_ne_zero {m : Nat} (h : m < 16) (h0 : m ≠ 0) :
    hexDigitChar m ≠ '0' := by
  interval_cases m <;> simp_all <;> decide

theorem toHexGo_foldl {f n : Nat} (acc : List Char) (a : Nat) (h : n ≤ f) :
    (toHexGo f n acc).foldl (fun a c => a * 16 + hexVal c) a =
      acc.foldl (fun a c => a * 16 + hexVal c)
        (a * 16 ^ (toHexGo f n []).length + n) := by
  induction f generalizing n acc a with
  | zero =>
    have : n = 0 := by omega
    subst this; simp [toHexGo]
  | succ f ih =>
    by_cases hn : n = 0
    · subst hn; simp [toHexGo_zero]
    · simp only [toHexGo, hn, if_false]
      have hdiv : n / 16 < n := Nat.div_lt_self (by omega) (by omega)
      rw [ih _ _ (by omega)]
      rw [toHexGo_append [hexDigitChar (n % 16)] (show n / 16 ≤ f by omega)]
      simp only [List.foldl_cons, List.length_append, List.length_cons,
        List.length_nil, Nat.zero_add]
      congr 1
      rw [hexVal_hexDigitChar (Nat.mod_lt _ (by omega)), pow_succ, ← mul_assoc]
      generalize a * 16 ^ (toHexGo f (n / 16) []).length = Q
      omega

theorem fromHex_toHex (n : Nat) : fromHex (toHex n) = n := by
  by_cases hn : n = 0
  · subst hn; decide
  · simp only [toHex, hn, if_false, fromHex]
    rw [toHexGo_foldl [] 0 (Nat.le_refl n)]
    simp

theorem toHex_ne_nil (n : Nat) : toHex n ≠ [] := by
  by_cases hn : n = 0
  · subst hn; decide
  · simp only [toHex, hn, if_false]
    obtain ⟨f, rfl⟩ : ∃ k, n = k + 1 := ⟨n - 1, by omega⟩
    simp only [toHexGo, hn, if_false]
    rw [toHexGo_append [hexDigitChar ((f + 1) % 16)] (by
      have := Nat.div_lt_self (show 0 < f + 1 by omega) (show 1 < 16 by omega)
      omega)]
    simp

theorem toHexGo_all_hexDig {f n : Nat} {acc : List Char}
    (hacc : ∀ c ∈ acc, isHexDig c = true) :
    ∀ c ∈ toHexGo f n acc, isHexDig c = true := by
  induction f generalizing n acc with
  | zero => simpa [toHexGo] using hacc
  | succ f ih =>
    by_cases hn : n = 0
    · subst hn; simpa [toHexGo] using hacc
    · simp only [toHexGo, hn, if_false]
      refine ih ?_
      intro c hc
      rcases List.mem_cons.mp hc with rfl | hc
      · exact isHexDig_hexDigitChar (Nat.mod_lt _ (by omega))
      · exact hacc c hc

theorem toHex_all_hexDig (n : Nat) : ∀ c ∈ toHex n, isHexDig c = true := by
  by_cases hn : n = 0
  · subst hn; decide
  · simp only [toHex, hn, if_false]
    exact toHexGo_all_hexDig (by simp)

theorem toHexGo_head_ne_zero {f n : Nat} {acc : List Char} (h : n ≤ f)
    (hn : n ≠ 0) : (toHexGo f n acc).head? ≠ some '0' := by
  induction f generalizing n acc with
  | zero => omega
  | succ f ih =>
    simp only [toHexGo, hn, if_false]
    have hdiv : n / 16 < n := Nat.div_lt_self (by omega) (by omega)
    by_cases hq : n / 16 = 0
    · rw [hq, toHexGo_zero]
      have hlt : n < 16 := by omega
      have heq : n % 16 = n := Nat.mod_eq_of_lt hlt
      rw [heq]
      intro hcontra
      simp only [List.head?_cons, Option.some.injEq] at hcontra
      exact hexDigitChar_ne_zero hlt hn hcontra
    · exact ih (by omega) hq

theorem toHex_head_ne_zero {n : Nat} (hn : n ≠ 0) :
    (toHex n).head? ≠ some '0' := by
  simp only [toHex, hn, if_false]
  exact toHexGo_head_ne_zero (Nat.le_refl n) hn

theorem outChars_flush (p : List Char) :
    outChars (if p.isEmpty then ([] : Output) else [.str p]) = p := by
  cases p <;> simp [outChars, Write.chars]

theorem classifyChar_literal {t : List (Nat × Nat)} {c ch : Char}
    (h : classifyChar t c = .Literal ch) : ch = c := by
  unfold classifyChar at h
  split_ifs at h <;> simp_all

theorem classifyChar_repeated {t : List (Nat × Nat)} {c ch : Char}
    (h : classifyChar t c = .Repeated ch) : ch = c := by
  unfold classifyChar at h
  split_ifs at h <;> simp_all

theorem escStrGo_chars (t : List (Nat × Nat)) (s : List Char) :
    ∀ pending, outChars (escStrGo t pending s) =
      pending ++ outChars (escStrUnbatched t s) := by
  induction s with
  | nil =>
    intro pending
    cases pending <;> simp [escStrGo, escStrUnbatched, outChars, Write.chars]
  | cons c s ih =>
    intro pending
    rcases hcl : classifyChar t c with cp | ch | _ | ch | sq
    · simp only [escStrGo, hcl, escStrUnbatched, List.flatMap_cons,
        outChars_append, ih, List.nil_append, outChars_flush, List.append_assoc]
    · have hch : ch = c := classifyChar_literal hcl
      subst hch
      simp only [escStrGo, hcl, ih, escStrUnbatched, List.flatMap_cons,
        outChars_append]
      simp [EscapedCodePoint.format, outChars, Write.chars, List.append_assoc]
    · simp only [escStrGo, hcl, escStrUnbatched, List.flatMap_cons,
        outChars_append, ih, List.nil_append, outChars_flush, List.append_assoc]
    · simp only [escStrGo, hcl, escStrUnbatched, List.flatMap_cons,
        outChars_append, ih, List.nil_append, outChars_flush, List.append_assoc]
    · simp only [escStrGo, hcl, escStrUnbatched, List.flatMap_cons,
        outChars_append, ih, List.nil_append, outChars_flush, List.append_assoc]

theorem escStrOut_chars (t : List (Nat × Nat)) (s : List Char) :
    outChars (escStrOut t s) = outChars (escStrUnbatched t s) := by
  simpa using escStrGo_chars t s []

theorem push_err_inv {c : Char} {w : Nat} {cs : List Char} {v : Nat}
    {e : Option Nat} {r : Utf8Result} (h : r.push c w = .err cs v e) :
    ∃ cs' v', r = .err cs' v' e ∧ cs = c :: cs' ∧ v = v' + w := by
  cases r with
  | ok cs0 => exact Utf8Result.noConfusion h
  | err cs0 v0 e0 =>
    simp only [Utf8Result.push, Utf8Result.err.injEq] at h
    exact ⟨cs0, v0, by rw [← h.2.2], h.1.symm, h.2.1.symm⟩

theorem utf8Validate_err (bs : List Nat) :
    ∀ cs v e, utf8Validate bs = .err cs v e →
      v < bs.length ∧ ∀ k, e = some k → 1 ≤ k ∧ v + k ≤ bs.length := by
  induction bs using utf8Validate.induct with
  | case1 =>
    intro cs v e h
    exact Utf8Result.noConfusion h
  | case2 b rest hb ih =>
    intro cs v e h
    unfold utf8Validate at h
    simp only [*, if_true, if_false] at h
    obtain ⟨cs', v', hr, rfl, rfl⟩ := push_err_inv h
    obtain ⟨h1, h2⟩ := ih _ _ _ hr
    refine ⟨by simp; omega, ?_⟩
    intro k hk
    obtain ⟨hk1, hk2⟩ := h2 k hk
    simp
    omega
  | case3 b rest h1 h2 =>
    intro cs v e h
    unfold utf8Validate at h
    simp only [*, if_true, if_false, Utf8Result.err.injEq] at h
    obtain ⟨rfl, rfl, rfl⟩ := h
    refine ⟨by simp, ?_⟩
    intro k hk
    injection hk with hk
    subst hk
    simp
  | case4 b h1 h2 h3 =>
    intro cs v e h
    unfold utf8Validate at h
    simp only [*, if_true, if_false, Utf8Result.err.injEq] at h
    obtain ⟨rfl, rfl, rfl⟩ := h
    refine ⟨by simp, ?_⟩
    intro k hk
    exact Option.noConfusion hk
  | case5 b h1 h2 h3 b2 rest hcont ih =>
    intro cs v e h
    unfold utf8Validate at h
    simp only [*, if_true, if_false] at h
    obtain ⟨cs', v', hr, rfl, rfl⟩ := push_err_inv h
    obtain ⟨hh1, hh2⟩ := ih _ _ _ hr
    refine ⟨by simp; omega, ?_⟩
    intro k hk
    obtain ⟨hk1, hk2⟩ := hh2 k hk
    simp
    omega
  | case6 b h1 h2 h3 b2 rest hncont =>
    intro cs v e h
    unfold utf8Validate at h
    simp only [*, if_true, if_false, Utf8Result.err.injEq] at h
    obtain ⟨rfl, rfl, rfl⟩ := h
    refine ⟨by simp, ?_⟩
    intro k hk
    injection hk with hk
    subst hk
    simp
  | case7 b h1 h2 h3 h4 =>
    intro cs v e h
    unfold utf8Validate at h
    simp only [*, if_true, if_false, Utf8Result.err.injEq] at h
    obtain ⟨rfl, rfl, rfl⟩ := h
    refine ⟨by simp, ?_⟩
    intro k hk
    exact Option.noConfusion hk
  | case8 b h1 h2 h3 h4 b2 hpair =>
    intro cs v e h
    unfold utf8Validate at h
    simp only [*, if_true, if_false, Utf8Result.err.injEq] at h
    obtain ⟨rfl, rfl, rfl⟩ := h
    refine ⟨by simp, ?_⟩
    intro k hk
    exact Option.noConfusion hk
  | case9 b h1 h2 h3 h4 b2 hpair b3 rest hcont ih =>
    intro cs v e h
    unfold utf8Validate at h
    simp only [*, if_true, if_false] at h
    obtain ⟨cs', v', hr, rfl, rfl⟩ := push_err_inv h
    obtain ⟨hh1, hh2⟩ := ih _ _ _ hr
    refine ⟨by simp; omega, ?_⟩
    intro k hk
    obtain ⟨hk1, hk2⟩ := hh2 k hk
    simp
    omega
  | case10 b h1 h2 h3 h4 b2 hpair b3 rest hncont =>
    intro cs v e h
    unfold utf8Validate at h
    simp only [*, if_true, if_false, Utf8Result.err.injEq] at h
    obtain ⟨rfl, rfl, rfl⟩ := h
    refine ⟨by simp, ?_⟩
    intro k hk
    injection hk with hk
    subst hk
    simp
  | case11 b h1 h2 h3 h4 b2 rest hnpair =>
    intro cs v e h
    unfold utf8Validate at h
    simp only [*, if_true, if_false, Utf8Result.err.injEq] at h
    obtain ⟨rfl, rfl, rfl⟩ := h
    refine ⟨by simp, ?_⟩
    intro k hk
    injection hk with hk
    subst hk
    simp
  | case12 b h1 h2 h3 h4 h5 =>
    intro cs v e h
    unfold utf8Validate at h
    simp only [*, if_true, if_false, Utf8Result.err.injEq] at h
    obtain ⟨rfl, rfl, rfl⟩ := h
    refine ⟨by simp, ?_⟩
    intro k hk
    exact Option.noConfusion hk
  | case13 b h1 h2 h3 h4 h5 b2 hpair =>
    intro cs v e h
    unfold utf8Validate at h
    simp only [*, if_true, if_false, Utf8Result.err.injEq] at h
    obtain ⟨rfl, rfl, rfl⟩ := h
    refine ⟨by simp, ?_⟩
    intro k hk
    exact Option.noConfusion hk
  | case14 b h1 h2 h3 h4 h5 b2 hpair b3 hcont =>
    intro cs v e h
    unfold utf8Validate at h
    simp only [*, if_true, if_false, Utf8Result.err.injEq] at h
    obtain ⟨rfl, rfl, rfl⟩ := h
    refine ⟨by simp, ?_⟩
    intro k hk
    exact Option.noConfusion hk
  | case15 b h1 h2 h3 h4 h5 b2 hpair b3 hcont b4 rest hcont4 ih =>
    intro cs v e h
    unfold utf8Validate at h
    simp only [*, if_true, if_false] at h
    obtain ⟨cs', v', hr, rfl, rfl⟩ := push_err_inv h
    obtain ⟨hh1, hh2⟩ := ih _ _ _ hr
    refine ⟨by simp; omega, ?_⟩
    intro k hk
    obtain ⟨hk1, hk2⟩ := hh2 k hk
    simp
    omega
  | case16 b h1 h2 h3 h4 h5 b2 hpair b3 hcont b4 rest hncont4 =>
    intro cs v e h
    unfold utf8Validate at h
    simp only [*, if_true, if_false, Utf8Result.err.injEq] at h
    obtain ⟨rfl, rfl, rfl⟩ := h
    refine ⟨by simp, ?_⟩
    intro k hk
    injection hk with hk
    subst hk
    simp
  | case17 b h1 h2 h3 h4 h5 b2 hpair b3 rest hncont3 =>
    intro cs v e h
    unfold utf8Validate at h
    simp only [*, if_true, if_false, Utf8Result.err.injEq] at h
    obtain ⟨rfl, rfl, rfl⟩ := h
    refine ⟨by simp, ?_⟩
    intro k hk
    injection hk with hk
    subst hk
    simp
  | case18 b h1 h2 h3 h4 h5 b2 rest hnpair =>
    intro cs v e h
    unfold utf8Validate at h
    simp only [*, if_true, if_false, Utf8Result.err.injEq] at h
    obtain ⟨rfl, rfl, rfl⟩ := h
    refine ⟨by simp, ?_⟩
    intro k hk
    injection hk with hk
    subst hk
    simp
  | case19 b rest h1 h2 h3 h4 h5 =>
    intro cs v e h
    unfold utf8Validate at h
    simp only [*, if_true, if_false, Utf8Result.err.injEq] at h
    obtain ⟨rfl, rfl, rfl⟩ := h
    refine ⟨by simp, ?_⟩
    intro k hk
    injection hk with hk
    subst hk
    simp

theorem escBytesGo_nil (t : List (Nat × Nat)) (f : Nat) :
    escBytesGo t f [] = [] := by
  cases f <;> rfl

theorem escBytesGo_fuel (t : List (Nat × Nat)) :
    ∀ (N : Nat) (bs : List Nat) (f1 f2 : Nat), bs.length ≤ N →
      bs.length ≤ f1 → bs.length ≤ f2 →
      escBytesGo t f1 bs = escBytesGo t f2 bs := by
  intro N
  induction N with
  | zero =>
    intro bs f1 f2 h0 h1 h2
    have : bs = [] := List.length_eq_zero.mp (by omega)
    subst this
    rw [escBytesGo_nil, escBytesGo_nil]
  | succ N ih =>
    intro bs f1 f2 h0 h1 h2
    cases bs with
    | nil => rw [escBytesGo_nil, escBytesGo_nil]
    | cons b rest0 =>
      obtain ⟨f1', rfl⟩ : ∃ k, f1 = k + 1 :=
        ⟨f1 - 1, by simp at h1; omega⟩
      obtain ⟨f2', rfl⟩ : ∃ k, f2 = k + 1 :=
        ⟨f2 - 1, by simp at h2; omega⟩
      simp only [escBytesGo]
      cases hv : utf8Validate (b :: rest0) with
      | ok cs => rfl
      | err cs v e =>
        have hfacts := utf8Validate_err _ _ _ _ hv
        have hrec : escBytesGo t f1'
              (((b :: rest0).drop v).drop
                (e.getD ((b :: rest0).drop v).length)) =
            escBytesGo t f2'
              (((b :: rest0).drop v).drop
                (e.getD ((b :: rest0).drop v).length)) := by
          apply ih
          · cases e with
            | none =>
              simp only [Option.getD_none, List.drop_length, List.length_nil]
              omega
            | some k =>
              obtain ⟨hk1, hk2⟩ := hfacts.2 k rfl
              simp only [List.length_drop, List.length_cons] at *
              simp only [Option.getD_some]
              omega
          · cases e with
            | none =>
              simp only [Option.getD_none, List.drop_length, List.length_nil]
              omega
            | some k =>
              obtain ⟨hk1, hk2⟩ := hfacts.2 k rfl
              simp only [List.length_drop, List.length_cons] at *
              simp only [Option.getD_some]
              omega
          · cases e with
            | none =>
              simp only [Option.getD_none, List.drop_length, List.length_nil]
              omega
            | some k =>
              obtain ⟨hk1, hk2⟩ := hfacts.2 k rfl
              simp only [List.length_drop, List.length_cons] at *
              simp only [Option.getD_some]
              omega
        simp only [hrec]

theorem escBytesGo_out (t : List (Nat × Nat)) (bs : List Nat) (f : Nat)
    (h : bs.length ≤ f) : escBytesGo t f bs = escBytesOut t bs :=
  escBytesGo_fuel t bs.length bs f bs.length (Nat.le_refl _) h (Nat.le_refl _)

theorem binarySearchGo_spec (t : List (Nat × Nat)) (cp : Nat)
    (hsorted : ∀ i j, i < j → j < t.length →
      (t.getD i (0, 0)).1 < (t.getD j (0, 0)).1) :
    ∀ (fuel left right : Nat), right - left ≤ fuel → left ≤ right →
      right ≤ t.length →
      (∀ j, j < left → (t.getD j (0, 0)).1 < cp) →
      (∀ j, right ≤ j → j < t.length → cp < (t.getD j (0, 0)).1) →
      (match binarySearchGo t cp fuel left right with
        | .found i => i < t.length ∧ (t.getD i (0, 0)).1 = cp
        | .notFound i => left ≤ i ∧ i ≤ right ∧
            (∀ j, j < i → (t.getD j (0, 0)).1 < cp) ∧
            (∀ j, i ≤ j → j < t.length → cp < (t.getD j (0, 0)).1)) := by
  intro fuel
  induction fuel with
  | zero =>
    intro left right hf hlr hrt hL hR
    simp only [binarySearchGo]
    exact ⟨Nat.le_refl _, hlr, hL, fun j hj hjt => hR j (by omega) hjt⟩
  | succ fuel ih =>
    intro left right hf hlr hrt hL hR
    simp only [binarySearchGo]
    by_cases hlt : left < right
    · rw [if_pos hlt]
      by_cases h1 : (t.getD (left + (right - left) / 2) (0, 0)).1 < cp
      · rw [if_pos h1]
        have harg : ∀ j, j < left + (right - left) / 2 + 1 →
            (t.getD j (0, 0)).1 < cp := by
          intro j hj
          rcases Nat.lt_or_ge j (left + (right - left) / 2) with hjm | hjm
          · exact lt_trans (hsorted j _ hjm (by omega)) h1
          · have : j = left + (right - left) / 2 := by omega
            subst this; exact h1
        have hih := ih (left + (right - left) / 2 + 1) right (by omega)
          (by omega) hrt harg hR
        cases hres' : binarySearchGo t cp fuel (left + (right - left) / 2 + 1)
            right with
        | found i => rw [hres'] at hih; exact hih
        | notFound i =>
          rw [hres'] at hih
          exact ⟨by omega, hih.2.1, hih.2.2.1, hih.2.2.2⟩
      · rw [if_neg h1]
        by_cases h2 : cp < (t.getD (left + (right - left) / 2) (0, 0)).1
        · rw [if_pos h2]
          have harg : ∀ j, left + (right - left) / 2 ≤ j → j < t.length →
              cp < (t.getD j (0, 0)).1 := by
            intro j hj hjt
            rcases Nat.eq_or_lt_of_le hj with heq | hj'
            · rw [← heq]; exact h2
            · exact lt_trans h2 (hsorted _ j hj' hjt)
          have hih := ih left (left + (right - left) / 2) (by omega)
            (by omega) (by omega) hL harg
          cases hres' : binarySearchGo t cp fuel left
              (left + (right - left) / 2) with
          | found i => rw [hres'] at hih; exact hih
          | notFound i =>
            rw [hres'] at hih
            exact ⟨hih.1, by omega, hih.2.2.1, hih.2.2.2⟩
        · rw [if_neg h2]
          exact ⟨by omega, by omega⟩
    · rw [if_neg hlt]
      exact ⟨Nat.le_refl _, hlr, hL, fun j hj hjt => hR j (by omega) hjt⟩

theorem sorted_of_wf_disj (t : List (Nat × Nat))
    (hwf : ∀ j, j < t.length → (t.getD j (0, 0)).1 ≤ (t.getD j (0, 0)).2)
    (hdisj : ∀ j, j + 1 < t.length →
      (t.getD j (0, 0)).2 < (t.getD (j + 1) (0, 0)).1) :
    ∀ i j, i < j → j < t.length →
      (t.getD i (0, 0)).1 < (t.getD j (0, 0)).1 := by
  have step : ∀ d i, i + d + 1 < t.length →
      (t.getD i (0, 0)).1 < (t.getD (i + d + 1) (0, 0)).1 := by
    intro d
    induction d with
    | zero =>
      intro i hi
      exact lt_of_le_of_lt (hwf i (by omega)) (hdisj i (by omega))
    | succ d ihd =>
      intro i hi
      have h1 := ihd i (by omega)
      have h2 : (t.getD (i + d + 1) (0, 0)).1 <
          (t.getD (i + d + 1 + 1) (0, 0)).1 :=
        lt_of_le_of_lt (hwf _ (by omega)) (hdisj _ (by omega))
      have h3 := lt_trans h1 h2
      have : i + d + 1 + 1 = i + (d + 1) + 1 := by omega
      rw [this] at h3
      exact h3
  intro i j hij hjt
  obtain ⟨d, rfl⟩ : ∃ d, j = i + d + 1 := ⟨j - i - 1, by omega⟩
  exact step d i hjt

theorem table_contains_iff (t : List (Nat × Nat)) (cp : Nat)
    (hwf : ∀ j, j < t.length → (t.getD j (0, 0)).1 ≤ (t.getD j (0, 0)).2)
    (hdisj : ∀ j, j + 1 < t.length →
      (t.getD j (0, 0)).2 < (t.getD (j + 1) (0, 0)).1) :
    table_contains t cp = true ↔
      ∃ j, j < t.length ∧ (t.getD j (0, 0)).1 ≤ cp ∧
        cp ≤ (t.getD j (0, 0)).2 := by
  have hsorted := sorted_of_wf_disj t hwf hdisj
  have hspec := binarySearchGo_spec t cp hsorted (t.length + 1) 0 t.length
    (by omega) (by omega) (Nat.le_refl _)
    (fun j hj => absurd hj (Nat.not_lt_zero j))
    (fun j hj hjt => absurd hjt (by omega))
  unfold table_contains binarySearch
  cases hres : binarySearchGo t cp (t.length + 1) 0 t.length with
  | found i =>
    rw [hres] at hspec
    simp only []
    constructor
    · intro _
      exact ⟨i, hspec.1, le_of_eq hspec.2,
        hspec.2 ▸ hwf i hspec.1⟩
    · intro _; trivial
  | notFound i =>
    rw [hres] at hspec
    obtain ⟨hi0, hir, hbelow, habove⟩ := hspec
    cases i with
    | zero =>
      simp only []
      constructor
      · intro hfalse; exact absurd hfalse (by simp)
      · rintro ⟨j, hjt, hj1, hj2⟩
        exact absurd hj1 (not_le.mpr (habove j (Nat.zero_le j) hjt))
    | succ j0 =>
      simp only [decide_eq_true_eq]
      constructor
      · intro hle
        exact ⟨j0, by omega, le_of_lt (hbelow j0 (by omega)), hle⟩
      · rintro ⟨j, hjt, hj1, hj2⟩
        have hji : j < j0 + 1 := by
          by_contra hge
          push_neg at hge
          exact absurd hj1 (not_le.mpr (habove j hge hjt))
        rcases Nat.lt_or_ge j j0 with hjlt | hjge
        · have hk1 : (t.getD (j + 1) (0, 0)).1 ≤ (t.getD j0 (0, 0)).1 := by
            have h4 : j + 1 ≤ j0 := hjlt
            rcases Nat.eq_or_lt_of_le h4 with heq | hlt'
            · rw [heq]
            · exact le_of_lt (hsorted (j + 1) j0 hlt' (by omega))
          have hd := hdisj j (by omega)
          have hcp := hbelow j0 (by omega)
          omega
        · have : j = j0 := by omega
          subst this
          exact hj2

theorem dropWhile_length_le {α : Type} (p : α → Bool) (l : List α) :
    (l.dropWhile p).length ≤ l.length := by
  induction l with
  | nil => simp [List.dropWhile]
  | cons c rest ih =>
    simp only [List.dropWhile]
    cases p c with
    | true => simp; omega
    | false => simp

/-- Reads the closing bracket of an escape and returns the already-parsed
code point together with the remaining input (§6 grammar). -/
def expectEnd (n : Nat) : List Char → Option (Nat × List Char)
  | c :: rest => if c = '}' then some (n, rest) else none
  | [] => none

/-- Parses the interior of one escape following an opening bracket against
the §6 grammar — a doubled start bracket, a quote escape, a named escape, or
a hex escape — returning the denoted code point and the remaining input. -/
def unescapeEsc : List Char → Option (Nat × List Char)
  | [] => none
  | c :: rest =>
    if c = '{' then some (123, rest)
    else if c = '"' then expectEnd 34 rest
    else if c = '~' then
      match rest with
      | [] => none
      | c2 :: rest2 =>
        if c2 = 't' then expectEnd 9 rest2
        else if c2 = 'n' then expectEnd 10 rest2
        else if c2 = 'r' then expectEnd 13 rest2
        else if c2 = 'u' then
          if (rest2.takeWhile isHexDig).isEmpty then none
          else expectEnd (fromHex (rest2.takeWhile isHexDig))
            (rest2.dropWhile isHexDig)
        else none
    else none

theorem expectEnd_length {m n : Nat} {l r : List Char}
    (h : expectEnd m l = some (n, r)) : r.length < l.length := by
  cases l with
  | nil => exact Option.noConfusion h
  | cons c rest =>
    simp only [expectEnd] at h
    by_cases hc : c = '}'
    · rw [if_pos hc] at h
      injection h with h
      injection h with h1 h2
      rw [← h2]
      simp
    · rw [if_neg hc] at h
      exact Option.noConfusion h

theorem unescapeEsc_length {l r : List Char} {n : Nat}
    (h : unescapeEsc l = some (n, r)) : r.length < l.length := by
  cases l with
  | nil => exact Option.noConfusion h
  | cons c rest =>
    simp only [unescapeEsc] at h
    split_ifs at h with h1 h2 h3
    · injection h with h
      injection h with ha hb
      rw [← hb]; simp
    · have := expectEnd_length h; simp; omega
    · split at h
      · exact Option.noConfusion h
      · rename_i c2 rest2
        split_ifs at h with h4 h5 h6 h7 h8
        · have := expectEnd_length h; simp at this ⊢; omega
        · have := expectEnd_length h; simp at this ⊢; omega
        · have := expectEnd_length h; simp at this ⊢; omega
        · have h9 := expectEnd_length h
          have h10 := dropWhile_length_le isHexDig rest2
          simp at h9 ⊢; omega
        all_goals exact Option.noConfusion h

/-- The loop of the §6 output-grammar parser for an escaped body: a literal
character stands for its own code point, `{{` and `}}` denote the bracket
characters, and a bracketed escape denotes the code point parsed by
`unescapeEsc`.  `fuel` bounds the number of parsed units; every unit consumes
at least one character, so the input length is sufficient. -/
def unescapeGo : Nat → List Char → Option (List Nat)
  | _, [] => some []
  | 0, _ :: _ => none
  | fuel + 1, c :: rest =>
    if c = '{' then
      match unescapeEsc rest with
      | some (n, rest') => (unescapeGo fuel rest').map (fun l => n :: l)
      | none => none
    else if c = '}' then
      match rest with
      | c2 :: rest2 =>
          if c2 = '}' then (unescapeGo fuel rest2).map (fun l => 125 :: l)
          else none
      | [] => none
    else (unescapeGo fuel rest).map (fun l => c.toNat :: l)

/-- The §6 output-grammar parser for an escaped body. -/
def unescapeBody (l : List Char) : Option (List Nat) := unescapeGo l.length l

theorem unescapeGo_fuel : ∀ (N : Nat) (l : List Char) (f1 f2 : Nat),
    l.length ≤ N → l.length ≤ f1 → l.length ≤ f2 →
    unescapeGo f1 l = unescapeGo f2 l := by
  intro N
  induction N with
  | zero =>
    intro l f1 f2 h0 h1 h2
    have : l = [] := List.length_eq_zero.mp (by omega)
    subst this
    cases f1 <;> cases f2 <;> rfl
  | succ N ih =>
    intro l f1 f2 h0 h1 h2
    cases l with
    | nil => cases f1 <;> cases f2 <;> rfl
    | cons c rest =>
      obtain ⟨f1', rfl⟩ : ∃ k, f1 = k + 1 := ⟨f1 - 1, by simp at h1; omega⟩
      obtain ⟨f2', rfl⟩ : ∃ k, f2 = k + 1 := ⟨f2 - 1, by simp at h2; omega⟩
      simp only [unescapeGo]
      by_cases hc1 : c = '{'
      · rw [if_pos hc1, if_pos hc1]
        cases he : unescapeEsc rest with
        | none => rfl
        | some p =>
          obtain ⟨n, rest'⟩ := p
          have hlen := unescapeEsc_length he
          have heq : unescapeGo f1' rest' = unescapeGo f2' rest' :=
            ih rest' f1' f2' (by simp at h0 ⊢; omega)
              (by simp at h1; omega) (by simp at h2; omega)
          simp only [heq]
      · rw [if_neg hc1, if_neg hc1]
        by_cases hc2 : c = '}'
        · rw [if_pos hc2, if_pos hc2]
          cases rest with
          | nil => rfl
          | cons c2 rest2 =>
            have heq : unescapeGo f1' rest2 = unescapeGo f2' rest2 :=
              ih rest2 f1' f2' (by simp at h0 ⊢; omega)
                (by simp at h1; omega) (by simp at h2; omega)
            simp only [heq]
        · rw [if_neg hc2, if_neg hc2]
          have heq : unescapeGo f1' rest = unescapeGo f2' rest :=
            ih rest f1' f2' (by simp at h0 ⊢; omega)
              (by simp at h1; omega) (by simp at h2; omega)
          rw [heq]

theorem unescapeEsc_lbrace (r : List Char) :
    unescapeEsc ('{' :: r) = some (123, r) := rfl

theorem unescapeEsc_quote (r : List Char) :
    unescapeEsc ('"' :: '}' :: r) = some (34, r) := rfl

theorem unescapeEsc_tab (r : List Char) :
    unescapeEsc ('~' :: 't' :: '}' :: r) = some (9, r) := rfl

theorem unescapeEsc_newline (r : List Char) :
    unescapeEsc ('~' :: 'n' :: '}' :: r) = some (10, r) := rfl

theorem unescapeEsc_cr (r : List Char) :
    unescapeEsc ('~' :: 'r' :: '}' :: r) = some (13, r) := rfl

theorem unescapeEsc_hex {ds : List Char} (r : List Char) (hne : ds ≠ [])
    (hall : ∀ c ∈ ds, isHexDig c = true) :
    unescapeEsc ('~' :: 'u' :: (ds ++ '}' :: r)) = some (fromHex ds, r) := by
  have hnd : ¬(isHexDig '}' = true) := by decide
  simp only [unescapeEsc]
  rw [List.takeWhile_append_of_pos hall, List.dropWhile_append_of_pos hall,
    List.takeWhile_cons_of_neg hnd, List.dropWhile_cons_of_neg hnd]
  simp [hne, expectEnd]

theorem unescapeBody_lit {c : Char} (hc1 : c ≠ '{') (hc2 : c ≠ '}')
    (rest : List Char) :
    unescapeBody (c :: rest) =
      (unescapeBody rest).map (fun l => c.toNat :: l) := by
  unfold unescapeBody
  simp only [List.length_cons, unescapeGo, if_neg hc1, if_neg hc2]

theorem unescapeBody_esc {rest : List Char} {n : Nat} {rest' : List Char}
    (h : unescapeEsc rest = some (n, rest')) :
    unescapeBody ('{' :: rest) =
      (unescapeBody rest').map (fun l => n :: l) := by
  unfold unescapeBody
  simp only [List.length_cons, unescapeGo, if_pos, h]
  rw [unescapeGo_fuel rest.length rest' rest.length rest'.length
    (le_of_lt (unescapeEsc_length h)) (le_of_lt (unescapeEsc_length h))
    (Nat.le_refl _)]

theorem unescapeBody_rbrace (rest : List Char) :
    unescapeBody ('}' :: '}' :: rest) =
      (unescapeBody rest).map (fun l => 125 :: l) := by
  unfold unescapeBody
  have heq := unescapeGo_fuel (rest.length + 1) rest (rest.length + 1)
    rest.length (by omega) (by omega) (Nat.le_refl _)
  simp only [List.length_cons, unescapeGo, heq]
  simp

theorem classifyChar_sequence_inv {t : List (Nat × Nat)} {c : Char}
    {s : List Char} (h : classifyChar t c = .Sequence s) :
    (c = '\t' ∧ s = ['t']) ∨ (c = '\n' ∧ s = ['n']) ∨
      (c = '\r' ∧ s = ['r']) := by
  unfold classifyChar at h
  split_ifs at h <;> simp_all

theorem classifyChar_quote_inv {t : List (Nat × Nat)} {c : Char}
    (h : classifyChar t c = .Quote) : c = '"' := by
  unfold classifyChar at h
  split_ifs at h <;> simp_all

theorem classifyChar_repeated_inv {t : List (Nat × Nat)} {c ch : Char}
    (h : classifyChar t c = .Repeated ch) :
    ch = c ∧ (c = '{' ∨ c = '}') := by
  unfold classifyChar at h
  split_ifs at h <;> simp_all
  tauto

theorem classifyChar_literal_inv {t : List (Nat × Nat)} {c ch : Char}
    (h : classifyChar t c = .Literal ch) :
    ch = c ∧ c ≠ '{' ∧ c ≠ '}' := by
  unfold classifyChar at h
  split_ifs at h with h1 h2 h3 h4 h5 h6 <;> simp_all

theorem classifyChar_hex_inv {t : List (Nat × Nat)} {c : Char} {cp : Nat}
    (h : classifyChar t c = .Hex cp) : cp = c.toNat := by
  unfold classifyChar at h
  split_ifs at h <;> simp_all

theorem unescape_unbatched (t : List (Nat × Nat)) :
    ∀ (s : List Char) (r : List Char) (l : List Nat),
      unescapeBody r = some l →
      unescapeBody (outChars (escStrUnbatched t s) ++ r) =
        some (s.map Char.toNat ++ l) := by
  intro s
  induction s with
  | nil =>
    intro r l h
    simpa [escStrUnbatched, outChars] using h
  | cons c s ih =>
    intro r l h
    have hrec := ih r l h
    have hsplit : outChars (escStrUnbatched t (c :: s)) =
        outChars ((classifyChar t c).format) ++
          outChars (escStrUnbatched t s) := by
      simp [escStrUnbatched, outChars]
    rw [hsplit, List.append_assoc]
    rcases hcl : classifyChar t c with cp | ch | _ | ch | sq
    · -- Hex
      have hcp := classifyChar_hex_inv hcl
      subst hcp
      have hchars : outChars ((EscapedCodePoint.Hex c.toNat).format) =
          '{' :: '~' :: 'u' :: (toHex c.toNat ++ ['}']) := by
        simp [EscapedCodePoint.format, outChars, Write.chars]
      rw [hchars]
      have hassoc : ('{' :: '~' :: 'u' :: (toHex c.toNat ++ ['}'])) ++
          (outChars (escStrUnbatched t s) ++ r) =
          '{' :: ('~' :: 'u' :: (toHex c.toNat ++
            '}' :: (outChars (escStrUnbatched t s) ++ r))) := by
        simp
      rw [hassoc]
      rw [unescapeBody_esc (unescapeEsc_hex _ (toHex_ne_nil _)
        (toHex_all_hexDig _))]
      rw [fromHex_toHex, hrec]
      simp
    · -- Literal
      obtain ⟨hch, hne1, hne2⟩ := classifyChar_literal_inv hcl
      have hchars : outChars ((EscapedCodePoint.Literal ch).format) = [c] := by
        rw [hch]; simp [EscapedCodePoint.format, outChars, Write.chars]
      rw [hchars]
      simp only [List.cons_append, List.nil_append]
      rw [unescapeBody_lit hne1 hne2, hrec]
      simp
    · -- Quote
      have hc := classifyChar_quote_inv hcl
      subst hc
      have hchars : outChars (EscapedCodePoint.Quote.format) =
          ['{', '"', '}'] := by
        simp [EscapedCodePoint.format, outChars, Write.chars]
      rw [hchars]
      simp only [List.cons_append, List.nil_append]
      rw [unescapeBody_esc (unescapeEsc_quote _), hrec]
      simp
    · -- Repeated
      obtain ⟨hch, hc⟩ := classifyChar_repeated_inv hcl
      have hchars : outChars ((EscapedCodePoint.Repeated ch).format) =
          [c, c] := by
        rw [hch]; simp [EscapedCodePoint.format, outChars, Write.chars]
      rw [hchars]
      simp only [List.cons_append, List.nil_append]
      rcases hc with rfl | rfl
      · rw [unescapeBody_esc (unescapeEsc_lbrace _), hrec]
        simp
      · rw [unescapeBody_rbrace, hrec]
        simp
    · -- Sequence
      rcases classifyChar_sequence_inv hcl with ⟨rfl, rfl⟩ | ⟨rfl, rfl⟩ |
        ⟨rfl, rfl⟩
      · have hchars : outChars ((EscapedCodePoint.Sequence ['t']).format) =
            ['{', '~', 't', '}'] := by
          simp [EscapedCodePoint.format, outChars, Write.chars]
        rw [hchars]
        simp only [List.cons_append, List.nil_append]
        rw [unescapeBody_esc (unescapeEsc_tab _), hrec]
        simp
      · have hchars : outChars ((EscapedCodePoint.Sequence ['n']).format) =
            ['{', '~', 'n', '}'] := by
          simp [EscapedCodePoint.format, outChars, Write.chars]
        rw [hchars]
        simp only [List.cons_append, List.nil_append]
        rw [unescapeBody_esc (unescapeEsc_newline _), hrec]
        simp
      · have hchars : outChars ((EscapedCodePoint.Sequence ['r']).format) =
            ['{', '~', 'r', '}'] := by
          simp [EscapedCodePoint.format, outChars, Write.chars]
        rw [hchars]
        simp only [List.cons_append, List.nil_append]
        rw [unescapeBody_esc (unescapeEsc_cr _), hrec]
        simp

theorem unescape_escStrOut (t : List (Nat × Nat)) (s : List Char) :
    unescapeBody (outChars (escStrOut t s)) = some (s.map Char.toNat) := by
  rw [escStrOut_chars]
  have := unescape_unbatched t s [] [] rfl
  simpa using this

/-- One write against a sink that accepts or rejects each write; a rejected
write is the `fmt::Error` that `?` propagates. -/
def writeM (ok : Write → Bool) (w : Write) : Except Unit Unit :=
  if ok w then Except.ok () else Except.error ()

/-- `EscapedCodePoint::format` against a fallible sink, with the early return
of `?` after the first failed write. -/
def formatM (ok : Write → Bool) : EscapedCodePoint → Except Unit Unit
  | .Literal ch => writeM ok (.char ch)
  | .Repeated ch => do
      writeM ok (.char ch)
      writeM ok (.char ch)
  | .Quote => do
      writeM ok (.char '{')
      writeM ok (.char '"')
      writeM ok (.char '}')
  | .Sequence s => do
      writeM ok (.char '{')
      writeM ok (.char '~')
      writeM ok (.str s)
      writeM ok (.char '}')
  | .Hex cp => do
      writeM ok (.char '{')
      writeM ok (.char '~')
      writeM ok (.str ('u' :: toHex cp))
      writeM ok (.char '}')

/-- Flushing the pending literal span against a fallible sink. -/
def flushM (ok : Write → Bool) (pending : List Char) : Except Unit Unit :=
  if pending.isEmpty then Except.ok () else writeM ok (.str pending)

/-- The string-driver loop against a fallible sink. -/
def escStrGoM (t : List (Nat × Nat)) (ok : Write → Bool)
    (pending : List Char) : List Char → Except Unit Unit
  | [] => flushM ok pending
  | c :: rest =>
    match classifyChar t c with
    | .Literal _ => escStrGoM t ok (pending ++ [c]) rest
    | e => do
        flushM ok pending
        formatM ok e
        escStrGoM t ok [] rest

/-- `impl Escape for str` against a fallible sink. -/
def escStrM (t : List (Nat × Nat)) (ok : Write → Bool)
    (s : List Char) : Except Unit Unit :=
  escStrGoM t ok [] s

/-- The per-byte rendering of an invalid span against a fallible sink. -/
def bytesFormatM (t : List (Nat × Nat)) (ok : Write → Bool) :
    List Nat → Except Unit Unit
  | [] => Except.ok ()
  | b :: rest => do
      formatM ok (classifyByte t b)
      bytesFormatM t ok rest

/-- The byte-driver loop against a fallible sink. -/
def escBytesGoM (t : List (Nat × Nat)) (ok : Write → Bool) :
    Nat → List Nat → Except Unit Unit
  | _, [] => Except.ok ()
  | 0, _ :: _ => Except.ok ()
  | fuel + 1, bs =>
    match utf8Validate bs with
    | .ok cs => escStrM t ok cs
    | .err cs v e => do
        escStrM t ok cs
        bytesFormatM t ok ((bs.drop v).take (e.getD (bs.drop v).length))
        escBytesGoM t ok fuel ((bs.drop v).drop (e.getD (bs.drop v).length))

/-- `impl Escape for [u8]` against a fallible sink. -/
def escBytesM (t : List (Nat × Nat)) (ok : Write → Bool)
    (bs : List Nat) : Except Unit Unit :=
  escBytesGoM t ok bs.length bs

/-- The UTF-16 driver loop against a fallible sink. -/
def escUtf16ItemsM (t : List (Nat × Nat)) (ok : Write → Bool) :
    List (Except Nat Char) → Except Unit Unit
  | [] => Except.ok ()
  | item :: rest => do
      formatM ok
        (match item with
          | .ok ch => classifyChar t ch
          | .error s => classifyCP t s)
      escUtf16ItemsM t ok rest

/-- The UTF-16 driver against a fallible sink. -/
def escUtf16M (t : List (Nat × Nat)) (ok : Write → Bool)
    (us : List Nat) : Except Unit Unit :=
  escUtf16ItemsM t ok (decodeUtf16 us)

instance exceptNatCharDecEq : DecidableEq (Except Nat Char) := fun a b =>
  match a, b with
  | .ok x, .ok y =>
    if h : x = y then isTrue (by rw [h])
    else isFalse (fun hc => h (Except.ok.inj hc))
  | .error x, .error y =>
    if h : x = y then isTrue (by rw [h])
    else isFalse (fun hc => h (Except.error.inj hc))
  | .ok _, .error _ => isFalse (fun hc => Except.noConfusion hc)
  | .error _, .ok _ => isFalse (fun hc => Except.noConfusion hc)

theorem seq_ok (a : Except Unit Unit) (b : Unit → Except Unit Unit) :
    (a >>= b) = Except.ok () ↔ (a = Except.ok () ∧ b () = Except.ok ()) := by
  cases a with
  | ok u => cases u; simp [Bind.bind, Except.bind]
  | error u => simp [Bind.bind, Except.bind]

theorem writeM_ok (ok : Write → Bool) (w : Write) :
    writeM ok w = Except.ok () ↔ ok w = true := by
  unfold writeM
  split_ifs with h <;> simp [h]

theorem formatM_ok (ok : Write → Bool) (e : EscapedCodePoint) :
    formatM ok e = Except.ok () ↔ (e.format).all ok = true := by
  cases e <;>
    simp [formatM, EscapedCodePoint.format, seq_ok, writeM_ok, and_assoc]

theorem flushM_ok (ok : Write → Bool) (pending : List Char) :
    flushM ok pending = Except.ok () ↔
      ((if pending.isEmpty then ([] : Output) else [.str pending]).all ok
        = true) := by
  unfold flushM
  split_ifs with h <;> simp [writeM_ok]

theorem escStrGoM_ok (t : List (Nat × Nat)) (ok : Write → Bool) :
    ∀ (s : List Char) (pending : List Char),
      escStrGoM t ok pending s = Except.ok () ↔
        (escStrGo t pending s).all ok = true := by
  intro s
  induction s with
  | nil =>
    intro pending
    simp [escStrGoM, escStrGo, flushM_ok]
  | cons c s ih =>
    intro pending
    rcases hcl : classifyChar t c with cp | ch | _ | ch | sq <;>
      simp [escStrGoM, escStrGo, hcl, seq_ok, flushM_ok, formatM_ok, ih,
        List.all_append, and_assoc]

theorem escStrM_ok (t : List (Nat × Nat)) (ok : Write → Bool)
    (s : List Char) :
    escStrM t ok s = Except.ok () ↔ (escStrOut t s).all ok = true :=
  escStrGoM_ok t ok s []

theorem bytesFormatM_ok (t : List (Nat × Nat)) (ok : Write → Bool) :
    ∀ bytes : List Nat,
      bytesFormatM t ok bytes = Except.ok () ↔
        ((bytes.flatMap fun b => (classifyByte t b).format).all ok
          = true) := by
  intro bytes
  induction bytes with
  | nil => simp [bytesFormatM]
  | cons b rest ih =>
    simp [bytesFormatM, seq_ok, formatM_ok, ih, List.all_append]

theorem escBytesGoM_ok (t : List (Nat × Nat)) (ok : Write → Bool) :
    ∀ (fuel : Nat) (bs : List Nat),
      escBytesGoM t ok fuel bs = Except.ok () ↔
        (escBytesGo t fuel bs).all ok = true := by
  intro fuel
  induction fuel with
  | zero =>
    intro bs
    cases bs <;> simp [escBytesGoM, escBytesGo]
  | succ fuel ih =>
    intro bs
    cases bs with
    | nil => simp [escBytesGoM, escBytesGo]
    | cons b rest =>
      simp only [escBytesGoM, escBytesGo]
      cases hv : utf8Validate (b :: rest) with
      | ok cs => exact escStrM_ok t ok cs
      | err cs v e =>
        simp [seq_ok, escStrM_ok, bytesFormatM_ok, ih, List.all_append,
          and_assoc]

theorem escBytesM_ok (t : List (Nat × Nat)) (ok : Write → Bool)
    (bs : List Nat) :
    escBytesM t ok bs = Except.ok () ↔ (escBytesOut t bs).all ok = true :=
  escBytesGoM_ok t ok bs.length bs

theorem escUtf16ItemsM_ok (t : List (Nat × Nat)) (ok : Write → Bool) :
    ∀ items : List (Except Nat Char),
      escUtf16ItemsM t ok items = Except.ok () ↔
        ((items.flatMap fun item =>
          (match item with
            | .ok ch => classifyChar t ch
            | .error s => classifyCP t s).format).all ok = true) := by
  intro items
  induction items with
  | nil => simp [escUtf16ItemsM]
  | cons item rest ih =>
    simp [escUtf16ItemsM, seq_ok, formatM_ok, ih, List.all_append]

theorem escUtf16M_ok (t : List (Nat × Nat)) (ok : Write → Bool)
    (us : List Nat) :
    escUtf16M t ok us = Except.ok () ↔ (escUtf16Out t us).all ok = true :=
  escUtf16ItemsM_ok t ok (decodeUtf16 us)

theorem classifyChar_highByte (t : List (Nat × Nat)) (ch : Char)
    (h : 0x80 ≤ ch.toNat) :
    classifyChar t ch =
      if table_contains t ch.toNat then .Hex ch.toNat else .Literal ch := by
  have e1 : ch ≠ '\t' := by
    intro hc
    have h' := char_eq_iff_toNat.mp hc
    rw [show ('\t').toNat = 9 from rfl] at h'
    omega
  have e2 : ch ≠ '\n' := by
    intro hc
    have h' := char_eq_iff_toNat.mp hc
    rw [show ('\n').toNat = 10 from rfl] at h'
    omega
  have e3 : ch ≠ '\r' := by
    intro hc
    have h' := char_eq_iff_toNat.mp hc
    rw [show ('\r').toNat = 13 from rfl] at h'
    omega
  have e4 : ch ≠ '"' := by
    intro hc
    have h' := char_eq_iff_toNat.mp hc
    rw [show ('"').toNat = 34 from rfl] at h'
    omega
  have e5 : ¬(ch = '}' ∨ ch = '{') := by
    rintro (hc | hc) <;> (
      have h' := char_eq_iff_toNat.mp hc
      first
        | rw [show ('}').toNat = 125 from rfl] at h'
        | rw [show ('{').toNat = 123 from rfl] at h'
      omega)
  have hp : is_printable t ch = !table_contains t ch.toNat := by
    unfold is_printable
    rw [if_neg (by omega), if_neg (by omega)]
  unfold classifyChar
  rw [if_neg e1, if_neg e2, if_neg e3, if_neg e4, if_neg e5, hp]
  by_cases hc : table_contains t ch.toNat
  · rw [if_pos hc, if_neg (by simp [hc])]
  · rw [if_neg hc, if_pos (by simp [hc])]

theorem utf8Validate_single_invalid {b : Nat} (h1 : 0x80 ≤ b)
    (h2 : b ≤ 0xFF) :
    utf8Validate [b] = .err [] 0 (some 1) ∨
      utf8Validate [b] = .err [] 0 none := by
  simp only [utf8Validate]
  split_ifs with g1 g2 g3 g4 g5 <;> first | omega | simp

theorem escBytesOut_single_invalid (t : List (Nat × Nat)) (b : Nat)
    (h1 : 0x80 ≤ b) (h2 : b ≤ 0xFF) :
    escBytesOut t [b] = (classifyByte t b).format := by
  have hv := utf8Validate_single_invalid h1 h2
  unfold escBytesOut
  rcases hv with hv | hv <;>
    simp [escBytesGo, hv, escStrOut, escStrGo, escBytesGo_nil]

theorem classifyByte_highByte_chars (t : List (Nat × Nat)) (b : Nat)
    (h1 : 0x80 ≤ b) (h2 : b ≤ 0xFF) :
    outChars ((classifyByte t b).format) =
      if table_contains t b then '{' :: '~' :: 'u' :: (toHex b ++ ['}'])
      else [Char.ofNat b] := by
  unfold classifyByte
  have htn : (Char.ofNat b).toNat = b := charToNat_ofNat (Or.inl (by omega))
  rw [classifyChar_highByte t _ (by rw [htn]; omega), htn]
  by_cases hc : table_contains t b
  · rw [if_pos hc, if_pos hc]
    simp [EscapedCodePoint.format, outChars, Write.chars]
  · rw [if_neg hc, if_neg hc]
    simp [EscapedCodePoint.format, outChars, Write.chars]

theorem utf8Validate_err_span (bs : List Nat) :
    ∀ cs v e, utf8Validate bs = .err cs v e →
      ∀ b ∈ (bs.drop v).take (e.getD (bs.drop v).length), 0x80 ≤ b := by
  induction bs using utf8Validate.induct with
  | case1 =>
    intro cs v e h
    exact Utf8Result.noConfusion h
  | case2 b rest hb ih =>
    intro cs v e h
    unfold utf8Validate at h
    simp only [*, if_true, if_false] at h
    obtain ⟨cs', v', hr, rfl, rfl⟩ := push_err_inv h
    have hih := ih _ _ _ hr
    simp only [List.drop_succ_cons]
    exact hih
  | case3 b rest h1 h2 =>
    intro cs v e h
    unfold utf8Validate at h
    simp only [*, if_true, if_false, Utf8Result.err.injEq] at h
    obtain ⟨rfl, rfl, rfl⟩ := h
    intro x hx
    simp at hx
    omega
  | case4 b h1 h2 h3 =>
    intro cs v e h
    unfold utf8Validate at h
    simp only [*, if_true, if_false, Utf8Result.err.injEq] at h
    obtain ⟨rfl, rfl, rfl⟩ := h
    intro x hx
    simp at hx
    omega
  | case5 b h1 h2 h3 b2 rest hcont ih =>
    intro cs v e h
    unfold utf8Validate at h
    simp only [*, if_true, if_false] at h
    obtain ⟨cs', v', hr, rfl, rfl⟩ := push_err_inv h
    have hih := ih _ _ _ hr
    simp only [show v' + 2 = v' + 1 + 1 from rfl, List.drop_succ_cons]
    exact hih
  | case6 b h1 h2 h3 b2 rest hncont =>
    intro cs v e h
    unfold utf8Validate at h
    simp only [*, if_true, if_false, Utf8Result.err.injEq] at h
    obtain ⟨rfl, rfl, rfl⟩ := h
    intro x hx
    simp at hx
    omega
  | case7 b h1 h2 h3 h4 =>
    intro cs v e h
    unfold utf8Validate at h
    simp only [*, if_true, if_false, Utf8Result.err.injEq] at h
    obtain ⟨rfl, rfl, rfl⟩ := h
    intro x hx
    simp at hx
    omega
  | case8 b h1 h2 h3 h4 b2 hpair =>
    intro cs v e h
    unfold utf8Validate at h
    simp only [*, if_true, if_false, Utf8Result.err.injEq] at h
    obtain ⟨rfl, rfl, rfl⟩ := h
    intro x hx
    simp at hx
    omega
  | case9 b h1 h2 h3 h4 b2 hpair b3 rest hcont ih =>
    intro cs v e h
    unfold utf8Validate at h
    simp only [*, if_true, if_false] at h
    obtain ⟨cs', v', hr, rfl, rfl⟩ := push_err_inv h
    have hih := ih _ _ _ hr
    simp only [show v' + 3 = v' + 1 + 1 + 1 from rfl, List.drop_succ_cons]
    exact hih
  | case10 b h1 h2 h3 h4 b2 hpair b3 rest hncont =>
    intro cs v e h
    unfold utf8Validate at h
    simp only [*, if_true, if_false, Utf8Result.err.injEq] at h
    obtain ⟨rfl, rfl, rfl⟩ := h
    intro x hx
    simp at hx
    omega
  | case11 b h1 h2 h3 h4 b2 rest hnpair =>
    intro cs v e h
    unfold utf8Validate at h
    simp only [*, if_true, if_false, Utf8Result.err.injEq] at h
    obtain ⟨rfl, rfl, rfl⟩ := h
    intro x hx
    simp at hx
    omega
  | case12 b h1 h2 h3 h4 h5 =>
    intro cs v e h
    unfold utf8Validate at h
    simp only [*, if_true, if_false, Utf8Result.err.injEq] at h
    obtain ⟨rfl, rfl, rfl⟩ := h
    intro x hx
    simp at hx
    omega
  | case13 b h1 h2 h3 h4 h5 b2 hpair =>
    intro cs v e h
    unfold utf8Validate at h
    simp only [*, if_true, if_false, Utf8Result.err.injEq] at h
    obtain ⟨rfl, rfl, rfl⟩ := h
    intro x hx
    simp at hx
    omega
  | case14 b h1 h2 h3 h4 h5 b2 hpair b3 hcont =>
    intro cs v e h
    unfold utf8Validate at h
    simp only [*, if_true, if_false, Utf8Result.err.injEq] at h
    obtain ⟨rfl, rfl, rfl⟩ := h
    intro x hx
    simp at hx
    omega
  | case15 b h1 h2 h3 h4 h5 b2 hpair b3 hcont b4 rest hcont4 ih =>
    intro cs v e h
    unfold utf8Validate at h
    simp only [*, if_true, if_false] at h
    obtain ⟨cs', v', hr, rfl, rfl⟩ := push_err_inv h
    have hih := ih _ _ _ hr
    simp only [show v' + 4 = v' + 1 + 1 + 1 + 1 from rfl,
      List.drop_succ_cons]
    exact hih
  | case16 b h1 h2 h3 h4 h5 b2 hpair b3 hcont b4 rest hncont4 =>
    intro cs v e h
    unfold utf8Validate at h
    simp only [*, if_true, if_false, Utf8Result.err.injEq] at h
    obtain ⟨rfl, rfl, rfl⟩ := h
    intro x hx
    simp at hx
    omega
  | case17 b h1 h2 h3 h4 h5 b2 hpair b3 rest hncont3 =>
    intro cs v e h
    unfold utf8Validate at h
    simp only [*, if_true, if_false, Utf8Result.err.injEq] at h
    obtain ⟨rfl, rfl, rfl⟩ := h
    intro x hx
    simp at hx
    omega
  | case18 b h1 h2 h3 h4 h5 b2 rest hnpair =>
    intro cs v e h
    unfold utf8Validate at h
    simp only [*, if_true, if_false, Utf8Result.err.injEq] at h
    obtain ⟨rfl, rfl, rfl⟩ := h
    intro x hx
    simp at hx
    omega
  | case19 b rest h1 h2 h3 h4 h5 =>
    intro cs v e h
    unfold utf8Validate at h
    simp only [*, if_true, if_false, Utf8Result.err.injEq] at h
    obtain ⟨rfl, rfl, rfl⟩ := h
    intro x hx
    simp at hx
    omega

theorem escBytesOut_err_step (t : List (Nat × Nat)) (bs : List Nat)
    (cs : List Char) (v : Nat) (e : Option Nat)
    (h : utf8Validate bs = .err cs v e) :
    escBytesOut t bs =
      escStrOut t cs ++
        (((bs.drop v).take (e.getD (bs.drop v).length)).flatMap
          fun b => (classifyByte t b).format) ++
        escBytesOut t ((bs.drop v).drop (e.getD (bs.drop v).length)) := by
  have hfacts := utf8Validate_err bs cs v e h
  obtain ⟨b0, bs', rfl⟩ : ∃ b0 bs', bs = b0 :: bs' := by
    cases bs with
    | nil => exact absurd h (fun hc => Utf8Result.noConfusion hc)
    | cons a l => exact ⟨a, l, rfl⟩
  have hlen : (((b0 :: bs').drop v).drop
      (e.getD ((b0 :: bs').drop v).length)).length ≤ bs'.length := by
    cases e with
    | none =>
      simp only [Option.getD_none, List.drop_length, List.length_nil]
      omega
    | some k =>
      obtain ⟨hk1, hk2⟩ := hfacts.2 k rfl
      have hv := hfacts.1
      simp only [Option.getD_some, List.length_drop, List.length_cons] at *
      omega
  unfold escBytesOut
  simp only [List.length_cons, escBytesGo, h]
  rw [escBytesGo_fuel t
    (((b0 :: bs').drop v).drop (e.getD ((b0 :: bs').drop v).length)).length
    (((b0 :: bs').drop v).drop (e.getD ((b0 :: bs').drop v).length))
    bs'.length
    (((b0 :: bs').drop v).drop (e.getD ((b0 :: bs').drop v).length)).length
    (Nat.le_refl _) hlen (Nat.le_refl _)]

/-- C1 (counterexample): escaping byte slices is NOT injective, so the
escaped form cannot always be parsed back to the original byte sequence.
The invalid single byte `0xA1` and the valid UTF-8 encoding `[0xC2, 0xA1]`
of U+00A1 produce the same escaped text `¡`, because an invalid byte is
classified through `From<u8>` as the Latin-1 character of its value and
U+00A1 is printable (as the repository's `test_bytes` confirms). -/
theorem c1_escape_not_injective_counterexample :
    outChars (escBytesOut uTable [0xC2, 0xA1]) =
      outChars (escBytesOut uTable [0xA1]) ∧
    ([0xC2, 0xA1] : List Nat) ≠ [0xA1] := by
  constructor
  · decide
  · decide

/-- C1 (amended): losslessness holds for the string driver on valid text:
parsing the escaped output of `impl Escape for str` against the §6 grammar
recovers exactly the original sequence of code points.  (For the byte driver
the property fails: see the counterexample.) -/
theorem c1_amended_str_driver_lossless (t : List (Nat × Nat))
    (s : List Char) :
    unescapeBody (outChars (escStrOut t s)) = some (s.map Char.toNat) :=
  unescape_escStrOut t s

/-- C2 (counterexample): a byte inside an invalid span is not always
rendered as a `HexEscape`: the invalid byte `0xA1` renders as the literal
character `¡`, not as the hex escape of `0xA1`. -/
theorem c2_invalid_byte_literal_counterexample :
    outChars (escBytesOut uTable [0xA1]) = ['¡'] ∧
    outChars ((EscapedCodePoint.Hex 0xA1).format) ≠ ['¡'] := by
  constructor
  · decide
  · decide

/-- C2 (amended): for every byte buffer and every invalid span the byte
driver encounters — the reported invalid length, or the remainder of the
buffer for an incomplete sequence at the end, after any valid prefix — the
driver renders each byte of the span individually through `From<u8>` (first
conjunct: the step decomposition of the resynchronisation loop), and each
such byte, classified as the one-byte code point of its value, renders as a
`HexEscape` exactly when that Latin-1 character is in the unprintable
table, and as the literal character otherwise (second conjunct). -/
theorem c2_amended_invalid_byte_classified (t : List (Nat × Nat))
    (bs : List Nat) (cs : List Char) (v : Nat) (e : Option Nat)
    (hbytes : ∀ b ∈ bs, b ≤ 0xFF)
    (h : utf8Validate bs = .err cs v e) :
    escBytesOut t bs =
      escStrOut t cs ++
        (((bs.drop v).take (e.getD (bs.drop v).length)).flatMap
          fun b => (classifyByte t b).format) ++
        escBytesOut t ((bs.drop v).drop (e.getD (bs.drop v).length)) ∧
    ∀ b ∈ (bs.drop v).take (e.getD (bs.drop v).length),
      0x80 ≤ b ∧
      outChars ((classifyByte t b).format) =
        (if table_contains t b then
          '{' :: '~' :: 'u' :: (toHex b ++ ['}'])
        else [Char.ofNat b]) := by
  refine ⟨escBytesOut_err_step t bs cs v e h, ?_⟩
  intro b hb
  have h80 := utf8Validate_err_span bs cs v e h b hb
  have hff : b ≤ 0xFF :=
    hbytes b (List.drop_subset v bs (List.take_subset _ _ hb))
  exact ⟨h80, classifyByte_highByte_chars t b h80 hff⟩

/-- C2 (witness): the amended claim evaluated at the buffer `[0xE0, 0xA0]`,
whose whole two-byte incomplete sequence is the invalid span; the per-byte
conjunct is instantiated at the span byte `0xA0`. -/
theorem c2_amended_invalid_byte_classified_witness :
    escBytesOut uTable [0xE0, 0xA0] =
      escStrOut uTable [] ++
        (((([0xE0, 0xA0] : List Nat).drop 0).take
          ((none : Option Nat).getD
            (([0xE0, 0xA0] : List Nat).drop 0).length)).flatMap
          fun b => (classifyByte uTable b).format) ++
        escBytesOut uTable ((([0xE0, 0xA0] : List Nat).drop 0).drop
          ((none : Option Nat).getD
            (([0xE0, 0xA0] : List Nat).drop 0).length)) ∧
    (0x80 ≤ (0xA0 : Nat) ∧
      outChars ((classifyByte uTable 0xA0).format) =
        (if table_contains uTable 0xA0 then
          '{' :: '~' :: 'u' :: (toHex 0xA0 ++ ['}'])
        else [Char.ofNat 0xA0])) := by
  have h := c2_amended_invalid_byte_classified uTable [0xE0, 0xA0] [] 0 none
    (by decide) (by decide)
  exact ⟨h.1, h.2 0xA0 (by decide)⟩

/-- C3: for every byte sequence and every UTF-16 unit sequence — malformed
input included — the driver succeeds exactly when the sink accepts every
write of the produced output; with a sink that never fails, escaping never
fails. -/
theorem c3_error_iff_sink_failure (t : List (Nat × Nat)) (ok : Write → Bool)
    (bs : List Nat) (us : List Nat) :
    (escBytesM t ok bs = Except.ok () ↔ (escBytesOut t bs).all ok = true) ∧
    (escUtf16M t ok us = Except.ok () ↔ (escUtf16Out t us).all ok = true) ∧
    escBytesM t (fun _ => true) bs = Except.ok () ∧
    escUtf16M t (fun _ => true) us = Except.ok () := by
  refine ⟨escBytesM_ok t ok bs, escUtf16M_ok t ok us, ?_, ?_⟩
  · rw [escBytesM_ok]
    simp
  · rw [escUtf16M_ok]
    simp

/-- C8: batching transparency — the string driver's batched output (maximal
literal runs as single contiguous writes) is character-identical to
rendering every character individually through the classifier and
renderer. -/
theorem c8_batching_transparent (t : List (Nat × Nat)) (s : List Char) :
    outChars (escStrOut t s) = outChars (escStrUnbatched t s) :=
  escStrOut_chars t s

/-- C10: the byte driver's resynchronisation loop terminates: whenever
UTF-8 validation fails, the error position lies inside the buffer, a
reported invalid length is at least one byte and stays within the buffer,
so the valid prefix plus the invalid span consume at least one byte per
iteration; consequently `bs.length` iterations of fuel suffice and any
larger fuel gives the same output. -/
theorem c10_byte_driver_progress (bs : List Nat) (cs : List Char) (v : Nat)
    (e : Option Nat) (h : utf8Validate bs = .err cs v e) :
    v < bs.length ∧
    (∀ k, e = some k → 1 ≤ k ∧ v + k ≤ bs.length) ∧
    ∀ (t : List (Nat × Nat)) (fuel : Nat), bs.length ≤ fuel →
      escBytesGo t fuel bs = escBytesOut t bs := by
  obtain ⟨h1, h2⟩ := utf8Validate_err bs cs v e h
  exact ⟨h1, h2, fun t fuel hf => escBytesGo_out t bs fuel hf⟩

/-- C10 (witness): the progress facts evaluated at the one-byte invalid
buffer `[0x80]`, with the fuel-stability conjunct instantiated at the
modelled table and fuel 5. -/
theorem c10_byte_driver_progress_witness :
    (0 : Nat) < ([0x80] : List Nat).length ∧
    (1 ≤ 1 ∧ 0 + 1 ≤ ([0x80] : List Nat).length) ∧
    escBytesGo uTable 5 [0x80] = escBytesOut uTable [0x80] := by
  have h := c10_byte_driver_progress [0x80] [] 0 (some 1) (by decide)
  exact ⟨h.1, h.2.1 1 rfl, h.2.2 uTable 5 (by decide)⟩

/-- The escape decision procedure as §4.2 states it, written from the
spec's words (first-match-wins: tab/newline/carriage return, the quote, the
two brackets, then printable characters, then hex), over the raw code-point
domain, for comparison with the code's `classifyCP`. -/
def classifySpec (t : List (Nat × Nat)) (cp : Nat) : EscapedCodePoint :=
  if cp = 9 then .Sequence ['t']
  else if cp = 10 then .Sequence ['n']
  else if cp = 13 then .Sequence ['r']
  else if cp = 34 then .Quote
  else if cp = 123 ∨ cp = 125 then .Repeated (Char.ofNat cp)
  else if Nat.isValidChar cp ∧ is_printable t (Char.ofNat cp) = true then
    .Literal (Char.ofNat cp)
  else .Hex cp

/-- C4: the classifier is a pure total function over the 32-bit code-point
domain and agrees everywhere with the spec's first-match-wins resolution
order; in particular surrogates (and any non-scalar value) can never reach
the printable step and fall through to `HexEscape`. -/
theorem c4_classifier_first_match_spec (t : List (Nat × Nat)) (cp : Nat)
    (h32 : cp < 2 ^ 32) :
    classifyCP t cp = classifySpec t cp := by
  by_cases h9 : cp = 9
  · subst h9; rfl
  by_cases h10 : cp = 10
  · subst h10; rfl
  by_cases h13 : cp = 13
  · subst h13; rfl
  by_cases h34 : cp = 34
  · subst h34; rfl
  by_cases h123 : cp = 123
  · subst h123; rfl
  by_cases h125 : cp = 125
  · subst h125; rfl
  by_cases hv : Nat.isValidChar cp
  · have htn : (Char.ofNat cp).toNat = cp := charToNat_ofNat hv
    have e1 : Char.ofNat cp ≠ '\t' := by
      intro hc
      have h' := char_eq_iff_toNat.mp hc
      rw [htn] at h'
      exact h9 (h'.trans rfl)
    have e2 : Char.ofNat cp ≠ '\n' := by
      intro hc
      have h' := char_eq_iff_toNat.mp hc
      rw [htn] at h'
      exact h10 (h'.trans rfl)
    have e3 : Char.ofNat cp ≠ '\r' := by
      intro hc
      have h' := char_eq_iff_toNat.mp hc
      rw [htn] at h'
      exact h13 (h'.trans rfl)
    have e4 : Char.ofNat cp ≠ '"' := by
      intro hc
      have h' := char_eq_iff_toNat.mp hc
      rw [htn] at h'
      exact h34 (h'.trans rfl)
    have e5 : ¬(Char.ofNat cp = '}' ∨ Char.ofNat cp = '{') := by
      rintro (hc | hc)
      · have h' := char_eq_iff_toNat.mp hc
        rw [htn] at h'
        exact h125 (h'.trans rfl)
      · have h' := char_eq_iff_toNat.mp hc
        rw [htn] at h'
        exact h123 (h'.trans rfl)
    unfold classifyCP classifySpec classifyChar
    rw [if_pos hv, if_neg e1, if_neg e2, if_neg e3, if_neg e4, if_neg e5,
      if_neg h9, if_neg h10, if_neg h13, if_neg h34,
      if_neg (show ¬(cp = 123 ∨ cp = 125) by tauto)]
    by_cases hp : is_printable t (Char.ofNat cp) = true
    · rw [if_pos hp, if_pos ⟨hv, hp⟩]
    · rw [if_neg hp, if_neg (fun hcontra => hp hcontra.2), htn]
  · unfold classifyCP classifySpec
    rw [if_neg hv, if_neg h9, if_neg h10, if_neg h13, if_neg h34,
      if_neg (show ¬(cp = 123 ∨ cp = 125) by tauto),
      if_neg (fun hcontra => hv hcontra.1)]

/-- C4 (witness): the agreement evaluated at the surrogate `0xD800` with
the modelled table. -/
theorem c4_classifier_first_match_spec_witness :
    classifyCP uTable 0xD800 = classifySpec uTable 0xD800 :=
  c4_classifier_first_match_spec uTable 0xD800 (by decide)

/-- C5: the printability classifier decides printable ASCII (space through
tilde) and unprintable other ASCII without consulting the table (the result
is the same for every table), and for non-ASCII code points it returns true
exactly when no range of the sorted, disjoint unprintable table contains the
point — the declarative reading of the binary search on the low bounds with
the predecessor-range check on the insertion index. -/
theorem c5_is_printable_characterization (t : List (Nat × Nat))
    (hwf : ∀ j, j < t.length → (t.getD j (0, 0)).1 ≤ (t.getD j (0, 0)).2)
    (hdisj : ∀ j, j + 1 < t.length →
      (t.getD j (0, 0)).2 < (t.getD (j + 1) (0, 0)).1)
    (ch : Char) :
    (ch.toNat ≤ 0x7F →
      ∀ t2 : List (Nat × Nat), is_printable t2 ch = is_printable t ch) ∧
    (is_printable t ch = true ↔
      ((0x20 ≤ ch.toNat ∧ ch.toNat ≤ 0x7E) ∨
        (0x7F < ch.toNat ∧
          ¬∃ j, j < t.length ∧ (t.getD j (0, 0)).1 ≤ ch.toNat ∧
            ch.toNat ≤ (t.getD j (0, 0)).2))) := by
  constructor
  · intro hascii t2
    unfold is_printable
    by_cases hpr : 0x20 ≤ ch.toNat ∧ ch.toNat ≤ 0x7E
    · rw [if_pos hpr, if_pos hpr]
    · rw [if_neg hpr, if_neg hpr, if_pos hascii, if_pos hascii]
  · unfold is_printable
    by_cases hpr : 0x20 ≤ ch.toNat ∧ ch.toNat ≤ 0x7E
    · rw [if_pos hpr]
      simp [hpr]
    · rw [if_neg hpr]
      by_cases hascii : ch.toNat ≤ 0x7F
      · rw [if_pos hascii]
        constructor
        · intro hfalse
          exact absurd hfalse (by simp)
        · rintro (⟨ha, hb⟩ | ⟨hgt, _⟩)
          · exact absurd (And.intro ha hb) hpr
          · omega
      · rw [if_neg hascii]
        constructor
        · intro h
          refine Or.inr ⟨by omega, ?_⟩
          intro hex
          have hc := (table_contains_iff t ch.toNat hwf hdisj).mpr hex
          rw [hc] at h
          exact absurd h (by decide)
        · rintro (⟨ha, hb⟩ | ⟨hgt, hnex⟩)
          · omega
          · have hc : table_contains t ch.toNat = false := by
              cases hb : table_contains t ch.toNat with
              | false => rfl
              | true =>
                exact absurd
                  ((table_contains_iff t ch.toNat hwf hdisj).mp hb) hnex
            rw [hc]
            rfl

/-- C5 (witness): the non-ASCII characterization evaluated at `¡` and the
modelled table, whose ranges are well-formed, sorted and disjoint. -/
theorem c5_is_printable_characterization_witness :
    is_printable uTable '¡' = true ↔
      ((0x20 ≤ ('¡').toNat ∧ ('¡').toNat ≤ 0x7E) ∨
        (0x7F < ('¡').toNat ∧
          ¬∃ j, j < uTable.length ∧
            (uTable.getD j (0, 0)).1 ≤ ('¡').toNat ∧
            ('¡').toNat ≤ (uTable.getD j (0, 0)).2)) :=
  (c5_is_printable_characterization uTable (by decide)
    (by
      intro j hj
      have hj2 : j + 1 < 6 := by simpa [uTable] using hj
      have hj' : j < 5 := by omega
      interval_cases j <;> decide) '¡').2

/-- C6: rendering writes exactly the specified text for every escape form —
the literal character once, the doubled literal twice, the named escape and
quote escape bracketed, and the hex escape as `{~u…}` with the code point in
lowercase hexadecimal, no leading zeros, faithfully parseable back — and the
renderer fails only when the sink rejects a write. -/
theorem c6_render_forms (ch : Char) (cp : Nat) (s : List Char)
    (h0 : cp ≠ 0) :
    outChars ((EscapedCodePoint.Literal ch).format) = [ch] ∧
    outChars ((EscapedCodePoint.Repeated ch).format) = [ch, ch] ∧
    outChars (EscapedCodePoint.Quote.format) = ['{', '"', '}'] ∧
    outChars ((EscapedCodePoint.Sequence s).format) =
      '{' :: '~' :: (s ++ ['}']) ∧
    outChars ((EscapedCodePoint.Hex cp).format) =
      '{' :: '~' :: 'u' :: (toHex cp ++ ['}']) ∧
    (∀ c ∈ toHex cp, isHexDig c = true) ∧
    (toHex cp).head? ≠ some '0' ∧
    fromHex (toHex cp) = cp ∧
    (∀ (ok : Write → Bool) (e : EscapedCodePoint),
      formatM ok e = Except.ok () ↔ (e.format).all ok = true) := by
  refine ⟨?_, ?_, ?_, ?_, ?_, toHex_all_hexDig cp, toHex_head_ne_zero h0,
    fromHex_toHex cp, formatM_ok⟩ <;>
    simp [EscapedCodePoint.format, outChars, Write.chars]

/-- C6 (witness): the rendering facts evaluated at the character `a`, the
code point `0x7F` and the mnemonic `t`. -/
theorem c6_render_forms_witness :
    outChars ((EscapedCodePoint.Literal 'a').format) = ['a'] ∧
    outChars ((EscapedCodePoint.Repeated 'a').format) = ['a', 'a'] ∧
    outChars (EscapedCodePoint.Quote.format) = ['{', '"', '}'] ∧
    outChars ((EscapedCodePoint.Sequence ['t']).format) =
      '{' :: '~' :: (['t'] ++ ['}']) ∧
    outChars ((EscapedCodePoint.Hex 0x7F).format) =
      '{' :: '~' :: 'u' :: (toHex 0x7F ++ ['}']) ∧
    (∀ c ∈ toHex 0x7F, isHexDig c = true) ∧
    (toHex 0x7F).head? ≠ some '0' ∧
    fromHex (toHex 0x7F) = 0x7F ∧
    (∀ (ok : Write → Bool) (e : EscapedCodePoint),
      formatM ok e = Except.ok () ↔ (e.format).all ok = true) :=
  c6_render_forms 'a' 0x7F ['t'] (by decide)

/-- C7: every printable ASCII character other than the quote and the two
brackets escapes to just itself, with no escape brackets; in particular the
backslash (which satisfies the hypotheses) is never escaped. -/
theorem c7_printable_ascii_literal (t : List (Nat × Nat)) (ch : Char)
    (h1 : 0x20 ≤ ch.toNat) (h2 : ch.toNat ≤ 0x7E) (hq : ch ≠ '"')
    (hb1 : ch ≠ '{') (hb2 : ch ≠ '}') :
    outChars (escCharOut t ch) = [ch] := by
  have e1 : ch ≠ '\t' := by
    intro hc
    have h' := char_eq_iff_toNat.mp hc
    rw [show ('\t').toNat = 9 from rfl] at h'
    omega
  have e2 : ch ≠ '\n' := by
    intro hc
    have h' := char_eq_iff_toNat.mp hc
    rw [show ('\n').toNat = 10 from rfl] at h'
    omega
  have e3 : ch ≠ '\r' := by
    intro hc
    have h' := char_eq_iff_toNat.mp hc
    rw [show ('\r').toNat = 13 from rfl] at h'
    omega
  have e5 : ¬(ch = '}' ∨ ch = '{') := by
    rintro (hc | hc)
    · exact hb2 hc
    · exact hb1 hc
  have hcl : classifyChar t ch = .Literal ch := by
    unfold classifyChar
    rw [if_neg e1, if_neg e2, if_neg e3, if_neg hq, if_neg e5,
      if_pos (show is_printable t ch = true by
        unfold is_printable
        rw [if_pos ⟨h1, h2⟩])]
  unfold escCharOut escStrOut
  simp [escStrGo, hcl, outChars, Write.chars]

/-- C7 (witness): the backslash escapes to itself through the character
driver with the modelled table. -/
theorem c7_printable_ascii_literal_witness :
    outChars (escCharOut uTable '\\') = ['\\'] :=
  c7_printable_ascii_literal uTable '\\' (by decide) (by decide)
    (by decide) (by decide) (by decide)

theorem decodeUtf16_err_surrogate : ∀ (us : List Nat) (s : Nat),
    Except.error s ∈ decodeUtf16 us → 0xD800 ≤ s ∧ s ≤ 0xDFFF := by
  intro us
  induction us using decodeUtf16.induct with
  | case1 =>
    intro s h
    simp [decodeUtf16] at h
  | case2 u hu =>
    intro s h
    simp [decodeUtf16, hu] at h
  | case3 u hu =>
    intro s h
    simp [decodeUtf16, hu] at h
    subst h
    omega
  | case4 u u2 rest hu ih =>
    intro s h
    simp [decodeUtf16, hu] at h
    exact ih s h
  | case5 u u2 rest hu h2 h3 ih =>
    intro s h
    simp [decodeUtf16, hu, h2, h3] at h
    exact ih s h
  | case6 u u2 rest hu h2 h3 ih =>
    intro s h
    simp [decodeUtf16, hu, h2, h3] at h
    rcases h with rfl | h
    · omega
    · exact ih s h
  | case7 u u2 rest hu h2 ih =>
    intro s h
    simp [decodeUtf16, hu, h2] at h
    rcases h with rfl | h
    · omega
    · exact ih s h

/-- C9: every unpaired surrogate reported by the UTF-16 decoder lies in
`0xD800`–`0xDFFF`, and the code point holding the raw surrogate value is
classified as a `HexEscape` of that value for every table — it can never
take the printable/`Literal` path and `is_printable` is never consulted for
it. -/
theorem c9_utf16_unpaired_surrogate_hex (us : List Nat) (s : Nat)
    (h : Except.error s ∈ decodeUtf16 us) :
    (0xD800 ≤ s ∧ s ≤ 0xDFFF) ∧
    ∀ t : List (Nat × Nat), classifyCP t s = .Hex s := by
  have hb := decodeUtf16_err_surrogate us s h
  refine ⟨hb, fun t => ?_⟩
  have hnv : ¬ Nat.isValidChar s := by
    intro hv
    unfold Nat.isValidChar at hv
    rcases hv with hv | ⟨hv1, hv2⟩ <;> omega
  unfold classifyCP
  rw [if_neg hnv]

/-- C9 (witness): the lone high surrogate `0xD800` decoded from the
one-unit sequence `[0xD800]` is in the surrogate range and classifies as a
hex escape with the modelled table. -/
theorem c9_utf16_unpaired_surrogate_hex_witness :
    ((0xD800 : Nat) ≤ 0xD800 ∧ (0xD800 : Nat) ≤ 0xDFFF) ∧
    classifyCP uTable 0xD800 = .Hex 0xD800 := by
  have h := c9_utf16_unpaired_surrogate_hex [0xD800] 0xD800 (by decide)
  exact ⟨h.1, h.2 uTable⟩

end Uniquote
